import Mathlib

/-!
Shallow embedding of the county-engine core (Stage, Act, AbstractNode) for
verification of its specification.  Machine floats are modelled as exact
rationals, C++ `unsigned int` arithmetic as naturals with explicit `% 2^32`
where conversions matter, and fallible code (iterator-range undefined
behaviour) as `Option`.  The event side effects of the C++ virtual calls
`onMouseEntered` / `onMouseLeft` are made explicit as emitted event lists.
-/

namespace CE

/-- A 2D affine transform, modelling the affine part of `sf::Transform`
(`transformPoint` uses only the six affine coefficients). -/
structure Transform where
  m00 : ℚ
  m01 : ℚ
  m02 : ℚ
  m10 : ℚ
  m11 : ℚ
  m12 : ℚ
deriving DecidableEq, Repr

/-- The identity transform. -/
def Transform.ident : Transform := ⟨1, 0, 0, 0, 1, 0⟩

/-- Composition `a * b` of affine transforms, as in `sf::Transform::operator*`:
the resulting transform applies `b` first, then `a`. -/
def Transform.comp (a b : Transform) : Transform :=
  ⟨a.m00 * b.m00 + a.m01 * b.m10,
   a.m00 * b.m01 + a.m01 * b.m11,
   a.m00 * b.m02 + a.m01 * b.m12 + a.m02,
   a.m10 * b.m00 + a.m11 * b.m10,
   a.m10 * b.m01 + a.m11 * b.m11,
   a.m10 * b.m02 + a.m11 * b.m12 + a.m12⟩

/-- `sf::Transform::transformPoint`. -/
def Transform.transformPoint (a : Transform) (p : ℚ × ℚ) : ℚ × ℚ :=
  (a.m00 * p.1 + a.m01 * p.2 + a.m02, a.m10 * p.1 + a.m11 * p.2 + a.m12)

/-- An axis-aligned rectangle, modelling `sf::FloatRect`. -/
structure Rect where
  left : ℚ
  top : ℚ
  width : ℚ
  height : ℚ
deriving DecidableEq, Repr

/-- `sf::Transform::transformRect`: the axis-aligned bounding box of the four
transformed corner points. -/
def Transform.transformRect (a : Transform) (r : Rect) : Rect :=
  let p1 := a.transformPoint (r.left, r.top)
  let p2 := a.transformPoint (r.left, r.top + r.height)
  let p3 := a.transformPoint (r.left + r.width, r.top)
  let p4 := a.transformPoint (r.left + r.width, r.top + r.height)
  let l := min (min p1.1 p2.1) (min p3.1 p4.1)
  let t := min (min p1.2 p2.2) (min p3.2 p4.2)
  let rr := max (max p1.1 p2.1) (max p3.1 p4.1)
  let b := max (max p1.2 p2.2) (max p3.2 p4.2)
  ⟨l, t, rr - l, b - t⟩

/-! ## Stage: window-event draining (`Stage::update`) -/

/-- Mouse buttons relevant to `Stage::update` (`sf::Mouse::Button`). -/
inductive SfButton where
  | left
  | right
  | middle
deriving DecidableEq, Repr

/-- The window-event kinds of `sf::Event` that `Stage::update` can poll. -/
inductive SfEvent where
  | resized (w h : ℕ)
  | mouseButtonPressed (btn : SfButton)
  | mouseButtonReleased (btn : SfButton)
  | mouseMoved (x y : ℤ)
  | closed
  | other
deriving DecidableEq, Repr

/-- The abstract calls `Stage::update` can make on the active Act while
draining one event (a resize runs `ce::Parameters::get().update`, resets the
view and calls `updateView`, which calls `currentAct->setUpNodes()`). -/
inductive ActCall where
  | onLeftMouseButtonPressed
  | onLeftMouseButtonReleased
  | onRightMouseButtonPressed
  | onRightMouseButtonReleased
  | onMouseMoved (x y : ℤ)
  | setUpNodes
deriving DecidableEq, Repr

/-- The Act calls made by the event-drain loop of `Stage::update` for one
polled event, in order (source: part_001 lines 38-58). -/
def stageActCalls : SfEvent → List ActCall
  | SfEvent.resized _ _ => [ActCall.setUpNodes]
  | SfEvent.mouseButtonPressed SfButton.left => [ActCall.onLeftMouseButtonPressed]
  | SfEvent.mouseButtonPressed SfButton.right => [ActCall.onRightMouseButtonPressed]
  | SfEvent.mouseButtonPressed SfButton.middle => []
  | SfEvent.mouseButtonReleased SfButton.left => [ActCall.onLeftMouseButtonReleased]
  | SfEvent.mouseButtonReleased SfButton.right => [ActCall.onRightMouseButtonReleased]
  | SfEvent.mouseButtonReleased SfButton.middle => []
  | SfEvent.mouseMoved _ _ => []
  | SfEvent.closed => []
  | SfEvent.other => []

/-- Whether the event-drain loop of `Stage::update` closes the window for a
given polled event. -/
def stageCloses : SfEvent → Bool
  | SfEvent.closed => true
  | _ => false

/-! ## Act: content modes, docking layout (`Act::setUpNodes`) -/

/-- `Act::Mode`. -/
inductive CMode where
  | STATIC
  | MOVABLE_BY_MOUSE
  | CENTERED_ON_NODE
deriving DecidableEq, Repr

/-- A docked UI node as `Act::setUpNodes` sees it: its position and its size
(the size after `resizeUi()`, which is outside the translated source). -/
structure UiElem where
  x : ℚ
  y : ℚ
  w : ℚ
  h : ℚ
deriving DecidableEq, Repr

/-- The inputs of `Act::setUpNodes`: window size, the four optional docked UI
slots, the content layer's size, position, origin and scale, the content mode
and the global UI scale factor `Parameters::get().getK()`. -/
structure ActLayout where
  windowW : ℚ
  windowH : ℚ
  leftUi : Option UiElem
  rightUi : Option UiElem
  topUi : Option UiElem
  bottomUi : Option UiElem
  contentW : ℚ
  contentH : ℚ
  contentPos : ℚ × ℚ
  contentOrigin : ℚ × ℚ
  contentScale : ℚ
  mode : CMode
  k : ℚ
deriving DecidableEq, Repr

/-- The outputs of `Act::setUpNodes`: the new docked UI positions, the content
layer's scale / origin / position, and the local `freeWidth` / `freeHeight`
values it computes. -/
structure LayoutOut where
  leftUi : Option UiElem
  rightUi : Option UiElem
  topUi : Option UiElem
  bottomUi : Option UiElem
  contentPos : ℚ × ℚ
  contentOrigin : ℚ × ℚ
  contentScale : ℚ
  freeWidth : ℚ
  freeHeight : ℚ
deriving DecidableEq, Repr

/-- `Modelled from the spec:` the accessors `getHalfX` / `getHalfY` used at
part_000 line 175 are not among the given sources; the spec says the STATIC
branch sets the content layer's "origin to its own center", so they are
modelled as half the content layer's width and height. -/
def halfOf (v : ℚ) : ℚ := v / 2

/-- `Act::setUpNodes` (source: part_000 lines 149-180).  The left UI only has
its y coordinate assigned (`setY`), the top UI only its x coordinate
(`setX`); the right and bottom UI get full positions (`setPos`). -/
def setUpNodes (a : ActLayout) : LayoutOut :=
  let fullLeftIndent : ℚ := match a.leftUi with
    | some u => u.w
    | none => 0
  let fullTopIndent : ℚ := match a.topUi with
    | some u => u.h
    | none => 0
  let leftUi' := a.leftUi.map fun u => { u with y := fullTopIndent }
  let freeWidth0 : ℚ := a.windowW - fullLeftIndent
  let rightUi' := a.rightUi.map fun u => { u with x := a.windowW - u.w, y := fullTopIndent }
  let freeWidth : ℚ := match a.rightUi with
    | some u => freeWidth0 - u.w
    | none => freeWidth0
  let topUi' := a.topUi.map fun u => { u with x := fullLeftIndent }
  let freeHeight0 : ℚ := a.windowH - fullTopIndent
  let bottomUi' := a.bottomUi.map fun u => { u with x := fullLeftIndent, y := a.windowH - u.h }
  let freeHeight : ℚ := match a.bottomUi with
    | some u => freeHeight0 - u.h
    | none => freeHeight0
  if a.mode = CMode.STATIC then
    { leftUi := leftUi', rightUi := rightUi', topUi := topUi', bottomUi := bottomUi',
      contentScale := min (freeWidth / a.contentW) (freeHeight / a.contentH),
      contentOrigin := (halfOf a.contentW, halfOf a.contentH),
      contentPos := (fullLeftIndent + freeWidth / 2, fullTopIndent + freeHeight / 2),
      freeWidth := freeWidth, freeHeight := freeHeight }
  else
    { leftUi := leftUi', rightUi := rightUi', topUi := topUi', bottomUi := bottomUi',
      contentScale := a.k,
      contentOrigin := a.contentOrigin,
      contentPos := a.contentPos,
      freeWidth := freeWidth, freeHeight := freeHeight }

/-! ## Act: right-button drag state (`Act::onMouseMoved`, press / release) -/

/-- The drag-tracking state of an Act: `isRightMouseButtonPressed`,
`isMouseMovedWithRightButton`, `savedMousePosition` and the content node's
accumulated translation (`content->move`). -/
structure PanState where
  rightPressed : Bool
  moved : Bool
  saved : ℤ × ℤ
  contentShift : ℤ × ℤ
deriving DecidableEq, Repr

/-- Manhattan length `|x| + |y|` of an offset, as in
`std::abs(offset.x) + std::abs(offset.y)`. -/
def manhattan (p : ℤ × ℤ) : ℤ := |p.1| + |p.2|

/-- The MOVABLE_BY_MOUSE branch of `Act::onMouseMoved` (source: part_000
lines 30-39).  The hit-testing part of `onMouseMoved` (lines 16-28) only
touches the selection state, which is modelled separately with the node tree;
it never writes any of these four fields. -/
def panMove (mode : CMode) (s : PanState) (p : ℤ × ℤ) : PanState :=
  if mode = CMode.MOVABLE_BY_MOUSE then
    let s1 := if s.rightPressed then
        let offset : ℤ × ℤ := (p.1 - s.saved.1, p.2 - s.saved.2)
        { s with
          moved := s.moved || decide (manhattan offset > 10),
          contentShift := (s.contentShift.1 + offset.1, s.contentShift.2 + offset.2) }
      else s
    { s1 with saved := p }
  else s

/-- `Act::onRightMouseButtonPressed` (source: part_000 lines 72-78). -/
def panRightPressed (mode : CMode) (s : PanState) : PanState :=
  if mode = CMode.MOVABLE_BY_MOUSE then
    { s with rightPressed := true, moved := false }
  else s

/-- The state effect of `Act::onRightMouseButtonReleased` on the drag state
(source: part_000 lines 80-84). -/
def panRightReleased (mode : CMode) (s : PanState) : PanState :=
  if mode = CMode.MOVABLE_BY_MOUSE then { s with rightPressed := false } else s

/-- Whether `Act::onRightMouseButtonReleased` forwards the click to the
selected node, assuming a selectable selected node exists (source: part_000
lines 86-92): the dispatch happens iff `isMouseMovedWithRightButton` is
still clear. -/
def panReleaseDispatches (mode : CMode) (s : PanState) : Bool :=
  !(panRightReleased mode s).moved

/-- Whether any single move of `ps`, measured from the previous recorded
position starting at `prev`, has Manhattan length exceeding 10.  This is the
condition that actually governs `isMouseMovedWithRightButton`. -/
def stepsExceed (prev : ℤ × ℤ) : List (ℤ × ℤ) → Bool
  | [] => false
  | p :: ps => decide (manhattan (p.1 - prev.1, p.2 - prev.2) > 10) || stepsExceed p ps

/-! ## Act: edge scrolling (`Act::update`, MOVABLE_BY_MOUSE branch) -/

/-- The C++ conversion of a signed `int` to `unsigned int` (two's complement,
value modulo `2^32`), applied by the compiler in the comparisons of
`Act::update` between `savedMousePosition` and the unsigned margin. -/
def uconv (x : ℤ) : ℕ := (x % (2 ^ 32 : ℤ)).toNat

/-- The x-axis edge-scroll offset computed by `Act::update` in
MOVABLE_BY_MOUSE mode (source: part_000 lines 188-193; the y axis at lines
194-198 is the same computation on the other coordinate).  `activeArea` is
`Parameters::get().getIndent() / 2` in unsigned arithmetic;
`window.getSize().x - activeArea` is an unsigned subtraction, wrapping modulo
`2^32`; both comparisons convert the signed saved coordinate to unsigned.
`amt` stands for the magnitude `SCROLL_SPEED * Parameters::get().getK()`. -/
def edgeScrollOffset (savedCoord : ℤ) (winSize indent amt : ℕ) : ℤ :=
  let activeArea : ℕ := indent / 2
  if uconv savedCoord < activeArea then (amt : ℤ)
  else if uconv savedCoord > (winSize + (2 ^ 32 - activeArea % 2 ^ 32)) % 2 ^ 32 then -(amt : ℤ)
  else 0

/-! ## AbstractNode: bulk child removal (`AbstractNode::removeChildren`) -/

/-- `AbstractNode::removeChildren` (source: part_001 lines 241-255) on the
children list.  `firstIndex` has C++ type `unsigned long`, `lastIndex` type
`long`.  Only the upper bound is clamped: `end` is the end iterator when
`lastIndex == -1 || lastIndex > (long)children.size()`.  The iterator
expression `children.begin() + firstIndex` with `firstIndex` beyond the list,
a negative `lastIndex` other than `-1`, or a range with `begin` past `end`,
is undefined behaviour, modelled as `none`.  The `toDelete` flag only decides
between destroying the removed children and detaching them, which does not
affect the resulting children list. -/
def removeChildren {α : Type} (_toDelete : Bool) (children : List α)
    (firstIndex : ℕ) (lastIndex : ℤ) : Option (List α) :=
  if firstIndex > children.length then none
  else
    let e : ℤ :=
      if lastIndex = -1 ∨ lastIndex > (children.length : ℤ) then (children.length : ℤ)
      else lastIndex
    if e < (firstIndex : ℤ) then none
    else some (children.take firstIndex ++ children.drop e.toNat)

/-! ## AbstractNode: the node tree -/

/-- The per-node data of an `AbstractNode` as far as the translated claims
need it: an identity (standing for the node's address, used to report which
node received a virtual `onMouseEntered` / `onMouseLeft` call), the
`isSelectable` flag, the node's own bounding rectangle `getRect()`, the local
transform `getTransformable().getTransform()`, the cached
`combinedTransform`, the `isTransformed` dirty flag, and the index of the
selected child (`selectedChild`, a non-owning reference into `children`,
`none` for null). -/
structure NData where
  nid : ℕ
  selectable : Bool
  rect : Rect
  loc : Transform
  cached : Transform
  dirty : Bool
  selChild : Option ℕ
deriving DecidableEq, Repr

/-- A node tree: an `AbstractNode` with its owned children (in z-order,
later entries on top). -/
inductive NTree where
  | node (dat : NData) (children : List NTree)

/-- The node's data. -/
def NTree.dat : NTree → NData
  | NTree.node d _ => d

/-- The node's children. -/
def NTree.children : NTree → List NTree
  | NTree.node _ cs => cs

/-- Replace the node's data. -/
def NTree.setDat : NTree → NData → NTree
  | NTree.node _ cs, d => NTree.node d cs

/-- Replace the child at an index. -/
def NTree.setChild : NTree → ℕ → NTree → NTree
  | NTree.node d cs, i, c => NTree.node d (cs.set i c)

/-- Replace the node's `selectedChild` reference. -/
def NTree.setSel : NTree → Option ℕ → NTree
  | NTree.node d cs, o => NTree.node { d with selChild := o } cs

mutual

/-- The height of a node tree (used as recursion fuel for `select`). -/
def NTree.depth : NTree → ℕ
  | NTree.node _ cs => 1 + NTree.depthList cs

/-- The maximum height of a list of trees. -/
def NTree.depthList : List NTree → ℕ
  | [] => 0
  | c :: cs => max (NTree.depth c) (NTree.depthList cs)

end

/-- An observable virtual call on a node: `onMouseEntered` / `onMouseLeft`,
identified by the receiving node's id. -/
inductive Ev where
  | enter (nid : ℕ)
  | leave (nid : ℕ)
deriving DecidableEq, Repr

/-- `AbstractNode::onMouseLeft` (source: part_001 lines 262-265, with
`deselectChild` at lines 349-355 inlined): the call itself is the leave
event on this node; the default implementation then deselects the selected
child, recursively firing `onMouseLeft` down the selected chain and clearing
the back-references. -/
def mouseLeftOp : NTree → NTree × List Ev
  | NTree.node d cs =>
    match d.selChild with
    | none => (NTree.node d cs, [Ev.leave d.nid])
    | some i =>
      match h : cs.get? i with
      | none => (NTree.node { d with selChild := none } cs, [Ev.leave d.nid])
      | some c =>
        let r := mouseLeftOp c
        (NTree.node { d with selChild := none } (cs.set i r.1), Ev.leave d.nid :: r.2)
decreasing_by
  simp_wf
  have := List.sizeOf_lt_of_mem (List.get?_mem h)
  omega

/-- `AbstractNode::deselectChild` (source: part_001 lines 349-355): if a
child is selected, fire `onMouseLeft` on it and clear the reference. -/
def deselectChildOp : NTree → NTree × List Ev
  | NTree.node d cs =>
    match d.selChild with
    | none => (NTree.node d cs, [])
    | some i =>
      match cs.get? i with
      | none => (NTree.node { d with selChild := none } cs, [])
      | some c =>
        let r := mouseLeftOp c
        (NTree.node { d with selChild := none } (cs.set i r.1), r.2)

/-- `AbstractNode::checkMouseOnIt` (source: part_001 lines 301-312):
`parentCT` is the parent's combined transform (the caller passes the true
combined transform of the scanning node, which the cache returns under the
invariant proved for the transform-cache claim). -/
def checkMouseOnIt (focus : Bool) (win : ℕ × ℕ) (pos : ℤ × ℤ)
    (parentCT : Transform) (c : NTree) : Bool :=
  let r := parentCT.transformRect c.dat.rect
  focus && decide (0 < pos.1) && decide (pos.1 < (win.1 : ℤ))
    && decide (0 < pos.2) && decide (pos.2 < (win.2 : ℤ))
    && decide (r.left < (pos.1 : ℚ)) && decide ((pos.1 : ℚ) < r.left + r.width)
    && decide (r.top < (pos.2 : ℚ)) && decide ((pos.2 : ℚ) < r.top + r.height)

/-- The predicate of the `std::find_if` lambda in
`AbstractNode::getSelectedChild` (source: part_001 lines 343-345):
`child->checkSelectable() && child->checkMouseOnIt(mousePosition)`. -/
def childHit (focus : Bool) (win : ℕ × ℕ) (pos : ℤ × ℤ) (parentCT : Transform)
    (c : NTree) : Bool :=
  c.dat.selectable && checkMouseOnIt focus win pos parentCT c

/-- `AbstractNode::getSelectedChild` (source: part_001 lines 341-347): scan
the children from last added (`rbegin`) to first added (`rend`) and return
the first match together with its index. -/
def pickChild (p : NTree → Bool) : List NTree → Option (ℕ × NTree)
  | [] => none
  | c :: cs =>
    match pickChild p cs with
    | some r => some (r.1 + 1, r.2)
    | none => if p c then some (0, c) else none

/-- `AbstractNode::select` (source: part_001 lines 203-215), with explicit
recursion fuel for termination (any fuel at least the tree height computes
the source recursion exactly; see `selectF_fuel_irrelevant` and
`select_unfold`): deselect the current selected child, then, if this node is
selectable, pick the topmost hit child, record it, fire enter on it and
recurse into it with its combined transform. -/
def selectF (focus : Bool) (win : ℕ × ℕ) (pos : ℤ × ℤ) :
    ℕ → Transform → NTree → NTree × List Ev
  | 0, _, t => (t, [])
  | n + 1, ct, t =>
    let r0 := deselectChildOp t
    if t.dat.selectable then
      match pickChild (childHit focus win pos ct) r0.1.children with
      | some (i, c) =>
        let r := selectF focus win pos n (ct.comp c.dat.loc) c
        ((r0.1.setChild i r.1).setSel (some i), r0.2 ++ Ev.enter c.dat.nid :: r.2)
      | none => r0
    else r0

/-- `AbstractNode::select` at fuel equal to the tree height (always
sufficient). -/
def select (focus : Bool) (win : ℕ × ℕ) (pos : ℤ × ℤ) (ct : Transform)
    (t : NTree) : NTree × List Ev :=
  selectF focus win pos t.depth ct t

/-- `AbstractNode::setSelectable` (source: part_001 lines 93-103), expressed
at the parent (`parent->checkChildSelected(this)` is `selChild = some i`):
nothing happens when the value is unchanged; otherwise the flag is written,
and either `onMouseEntered` fires (turning selectable on while the parent
reports this node selected) or `onMouseLeft` fires. -/
def setSelectableOfChild (t : NTree) (i : ℕ) (v : Bool) : NTree × List Ev :=
  match t.children.get? i with
  | none => (t, [])
  | some c =>
    if c.dat.selectable = v then (t, [])
    else
      let c1 := c.setDat { c.dat with selectable := v }
      if v && decide (t.dat.selChild = some i) then
        (t.setChild i c1, [Ev.enter c1.dat.nid])
      else
        let r := mouseLeftOp c1
        (t.setChild i r.1, r.2)

mutual

/-- Erase every `selectedChild` back-reference in a tree (used to state that
deselection changes nothing but the selection state). -/
def skel : NTree → NTree
  | NTree.node d cs => NTree.node { d with selChild := none } (skelList cs)

/-- `skel` on a list of trees. -/
def skelList : List NTree → List NTree
  | [] => []
  | c :: cs => skel c :: skelList cs

end

/-! ## AbstractNode: transform caching -/

mutual

/-- `AbstractNode::makeTransformed` (source: part_001 lines 293-299): set
the dirty flag on this node and recursively on every descendant. -/
def makeTransformed : NTree → NTree
  | NTree.node d cs => NTree.node { d with dirty := true } (makeTransformedList cs)

/-- `makeTransformed` on a list of trees. -/
def makeTransformedList : List NTree → List NTree
  | [] => []
  | c :: cs => makeTransformed c :: makeTransformedList cs

end

/-- Call `makeTransformed` on the node at a path (the empty path is the node
itself); an invalid path leaves the tree unchanged. -/
def makeTransformedAt : NTree → List ℕ → NTree
  | t, [] => makeTransformed t
  | t, i :: rest =>
    match t.children.get? i with
    | none => t
    | some c => t.setChild i (makeTransformedAt c rest)

/-- Overwrite the local transform of the node at a path, modelling the
effect of a mutation of the node's `sf::Transformable` (the excluded
windowing backend); the engine then calls `makeTransformed` on that node. -/
def setLocAt : NTree → List ℕ → Transform → NTree
  | t, [], l => t.setDat { t.dat with loc := l }
  | t, i :: rest, l =>
    match t.children.get? i with
    | none => t
    | some c => t.setChild i (setLocAt c rest l)

/-- The subtree rooted at a path. -/
def subtreeAt : NTree → List ℕ → Option NTree
  | t, [] => some t
  | t, i :: rest =>
    match t.children.get? i with
    | none => none
    | some c => subtreeAt c rest

mutual

/-- Whether every node of a tree has its dirty flag set. -/
def allDirtyB : NTree → Bool
  | NTree.node d cs => d.dirty && allDirtyList cs

/-- `allDirtyB` on a list of trees. -/
def allDirtyList : List NTree → Bool
  | [] => true
  | c :: cs => allDirtyB c && allDirtyList cs

end

/-- Whether the whole path from this node down along the given indices is
dirty; this is exactly the condition under which
`AbstractNode::getCombinedTransform` called at the end of the path reaches
this node through the recursive parent calls. -/
def pathAllDirty : NTree → List ℕ → Bool
  | t, [] => t.dat.dirty
  | t, i :: rest =>
    t.dat.dirty &&
      match t.children.get? i with
      | some c => pathAllDirty c rest
      | none => false

/-- The mathematically intended combined transform of the node at a path:
the composition of the local transforms from the root down (with `pfx` the
combined transform above the root, `Transform.ident` for none). -/
def specAt (pfx : Transform) : NTree → List ℕ → Option Transform
  | t, [] => some (pfx.comp t.dat.loc)
  | t, i :: rest =>
    match t.children.get? i with
    | none => none
    | some c => specAt (pfx.comp t.dat.loc) c rest

/-- `AbstractNode::getCombinedTransform` (source: part_001 lines 105-116)
called on the node at a path, with `pfx` the combined transform of the
root's parent (`Transform.ident` when the root has no parent, matching the
no-parent branch of the source).  The recursive upward call
`getParent()->getCombinedTransform()` reaches an ancestor exactly when every
node strictly below it on the path is dirty (`pathAllDirty`); an ancestor it
reaches recomputes and caches if dirty, otherwise returns its cache
untouched.  Returns the value together with the updated tree. -/
def getCTgo (pfx : Transform) : NTree → List ℕ → Option (Transform × NTree)
  | t, [] =>
    if t.dat.dirty then
      some (pfx.comp t.dat.loc,
        t.setDat { t.dat with dirty := false, cached := pfx.comp t.dat.loc })
    else some (t.dat.cached, t)
  | t, i :: rest =>
    match t.children.get? i with
    | none => none
    | some c =>
      let v := if t.dat.dirty then pfx.comp t.dat.loc else t.dat.cached
      let t1 := if t.dat.dirty && pathAllDirty c rest then
          t.setDat { t.dat with dirty := false, cached := v }
        else t
      match getCTgo v c rest with
      | none => none
      | some r => some (r.1, t1.setChild i r.2)

/-- `getCombinedTransform` of the node at a path in a rooted tree (the root
has no parent). -/
def getCombinedTransform (t : NTree) (p : List ℕ) : Option (Transform × NTree) :=
  getCTgo Transform.ident t p

mutual

/-- The transform-cache invariant, with `pfx` the combined transform above
this node: every clean node's cached combined transform is its parent's
combined transform composed with its local transform. -/
def invB (pfx : Transform) : NTree → Bool
  | NTree.node d cs =>
    (d.dirty || decide (d.cached = pfx.comp d.loc)) && invList (pfx.comp d.loc) cs

/-- `invB` on a list of trees. -/
def invList (pfx : Transform) : List NTree → Bool
  | [] => true
  | c :: cs => invB pfx c && invList pfx cs

end

/-! ## Layout helper accessors and concrete instances -/

/-- `fullLeftIndent` of `Act::setUpNodes`: the left UI's width, 0 if absent. -/
def leftIndentOf (a : ActLayout) : ℚ :=
  match a.leftUi with
  | some u => u.w
  | none => 0

/-- `fullTopIndent` of `Act::setUpNodes`: the top UI's height, 0 if absent. -/
def topIndentOf (a : ActLayout) : ℚ :=
  match a.topUi with
  | some u => u.h
  | none => 0

/-- The right UI's width, 0 if absent. -/
def rightWidthOf (a : ActLayout) : ℚ :=
  match a.rightUi with
  | some u => u.w
  | none => 0

/-- The bottom UI's height, 0 if absent. -/
def bottomHeightOf (a : ActLayout) : ℚ :=
  match a.bottomUi with
  | some u => u.h
  | none => 0

/-- A leaf node with a given id, selectable flag and rectangle. -/
def mkLeaf (n : ℕ) (sel : Bool) (r : Rect) : NTree :=
  NTree.node ⟨n, sel, r, Transform.ident, Transform.ident, true, none⟩ []

/-- Concrete sibling A (added first) for the topmost-wins instance. -/
def exTopA : NTree := mkLeaf 1 true ⟨0, 0, 10, 10⟩

/-- Concrete sibling B (added after A, same rectangle) for the topmost-wins
instance. -/
def exTopB : NTree := mkLeaf 2 true ⟨0, 0, 10, 10⟩

/-- A selectable root with overlapping selectable children A then B. -/
def exTopRoot : NTree :=
  NTree.node ⟨0, true, ⟨0, 0, 100, 100⟩, Transform.ident, Transform.ident, true, none⟩
    [exTopA, exTopB]

/-- A non-selectable child with id 5. -/
def exChild9 : NTree := mkLeaf 5 false ⟨0, 0, 10, 10⟩

/-- A parent whose `selectedChild` is null, with `exChild9` as only child. -/
def exParent9 : NTree :=
  NTree.node ⟨4, true, ⟨0, 0, 100, 100⟩, Transform.ident, Transform.ident, true, none⟩
    [exChild9]

/-- A parent currently reporting `exChild9` as its selected child. -/
def exParent9sel : NTree :=
  NTree.node ⟨4, true, ⟨0, 0, 100, 100⟩, Transform.ident, Transform.ident, true, some 0⟩
    [exChild9]

/-- A concrete local transform: translation by (1, 2). -/
def exT1 : Transform := ⟨1, 0, 1, 0, 1, 2⟩

/-- A concrete local transform: uniform scale by 2. -/
def exT2 : Transform := ⟨2, 0, 0, 0, 2, 0⟩

/-- A concrete replacement local transform: translation by (3, 4). -/
def exT3 : Transform := ⟨1, 0, 3, 0, 1, 4⟩

/-- A dirty leaf with local transform `exT2`. -/
def exCacheChild : NTree :=
  NTree.node ⟨11, true, ⟨0, 0, 1, 1⟩, exT2, Transform.ident, true, none⟩ []

/-- A dirty root with local transform `exT1` and child `exCacheChild`. -/
def exCacheRoot : NTree :=
  NTree.node ⟨10, true, ⟨0, 0, 1, 1⟩, exT1, Transform.ident, true, none⟩ [exCacheChild]

/-- A concrete layout: 100x100 window, no docked UI, 200x100 content,
STATIC mode. -/
def exLayoutStatic : ActLayout :=
  ⟨100, 100, none, none, none, none, 200, 100, (0, 0), (0, 0), 1, CMode.STATIC, 1⟩

/-- A concrete layout whose left UI sits at x = 7. -/
def exLayout6 : ActLayout :=
  ⟨100, 100, some ⟨7, 3, 10, 10⟩, none, none, none, 50, 50, (0, 0), (0, 0), 1,
    CMode.MOVABLE_BY_MOUSE, 1⟩

/-! # Theorems -/

/-- C1 counterexample: the event drain of `Stage::update` makes no
mouse-move call on the Act for a polled pointer-move event at (3, 4); the
claim that every such event is translated into an abstract mouse-move call
on the active Act is false on the code. -/
theorem stage_drops_mouse_move :
    stageActCalls (SfEvent.mouseMoved 3 4) = []
    ∧ ActCall.onMouseMoved 3 4 ∉ stageActCalls (SfEvent.mouseMoved 3 4) := by
  exact ⟨rfl, by simp [stageActCalls]⟩

/-- C1 (amended): `Stage::update` translates left/right press and release
events and resizes into the corresponding Act calls and closes the window on
a close request, but a pointer-move event is drained without any call on the
Act — no event ever produces a mouse-move call on the Act from
`Stage::update`. -/
theorem stage_dispatch_spec :
    (∀ (e : SfEvent) (x y : ℤ), ActCall.onMouseMoved x y ∉ stageActCalls e)
    ∧ (∀ x y : ℤ, stageActCalls (SfEvent.mouseMoved x y) = [])
    ∧ stageActCalls (SfEvent.mouseButtonPressed SfButton.left)
        = [ActCall.onLeftMouseButtonPressed]
    ∧ stageActCalls (SfEvent.mouseButtonPressed SfButton.right)
        = [ActCall.onRightMouseButtonPressed]
    ∧ stageActCalls (SfEvent.mouseButtonReleased SfButton.left)
        = [ActCall.onLeftMouseButtonReleased]
    ∧ stageActCalls (SfEvent.mouseButtonReleased SfButton.right)
        = [ActCall.onRightMouseButtonReleased]
    ∧ (∀ w h : ℕ, stageActCalls (SfEvent.resized w h) = [ActCall.setUpNodes])
    ∧ stageCloses SfEvent.closed = true := by
  refine ⟨?_, fun _ _ => rfl, rfl, rfl, rfl, rfl, fun _ _ => rfl, rfl⟩
  intro e x y
  cases e with
  | mouseButtonPressed b => cases b <;> simp [stageActCalls]
  | mouseButtonReleased b => cases b <;> simp [stageActCalls]
  | _ => simp [stageActCalls]

/-- C8 counterexample: in STATIC mode, `Act::onMouseMoved` does not record
the pointer position — the stored last-known position stays (0, 0) after a
move to (5, 5), so the claim does not hold regardless of content mode. -/
theorem saved_position_static_cex :
    (panMove CMode.STATIC ⟨false, false, (0, 0), (0, 0)⟩ (5, 5)).saved ≠ (5, 5) := by
  decide

/-- C8 (amended): `Act::onMouseMoved` records the pointer position into
`savedMousePosition` exactly in MOVABLE_BY_MOUSE mode; in STATIC and
CENTERED_ON_NODE modes the stored position is left unchanged. -/
theorem mouse_position_recording_spec (s : PanState) (p : ℤ × ℤ) :
    (panMove CMode.MOVABLE_BY_MOUSE s p).saved = p
    ∧ (panMove CMode.STATIC s p).saved = s.saved
    ∧ (panMove CMode.CENTERED_ON_NODE s p).saved = s.saved := by
  refine ⟨?_, rfl, rfl⟩
  simp [panMove]

/-- In MOVABLE_BY_MOUSE mode with the right button held, a sequence of mouse
moves leaves the drag-moved flag set iff some single move's offset from the
previously recorded position exceeds Manhattan length 10, and the right
button stays pressed. -/
theorem panMove_foldl (ps : List (ℤ × ℤ)) : ∀ s : PanState, s.rightPressed = true →
    (ps.foldl (panMove CMode.MOVABLE_BY_MOUSE) s).moved = (s.moved || stepsExceed s.saved ps)
    ∧ (ps.foldl (panMove CMode.MOVABLE_BY_MOUSE) s).rightPressed = true := by
  induction ps with
  | nil => intro s hs; simp [stepsExceed, hs]
  | cons p ps ih =>
    intro s hs
    have hstep : panMove CMode.MOVABLE_BY_MOUSE s p =
        { s with
          moved := s.moved || decide (manhattan (p.1 - s.saved.1, p.2 - s.saved.2) > 10),
          contentShift := (s.contentShift.1 + (p.1 - s.saved.1),
                           s.contentShift.2 + (p.2 - s.saved.2)),
          saved := p } := by
      simp [panMove, hs]
    obtain ⟨ihm, ihr⟩ := ih (panMove CMode.MOVABLE_BY_MOUSE s p) (by rw [hstep]; exact hs)
    rw [List.foldl_cons] at *
    refine ⟨?_, ihr⟩
    rw [ihm, hstep]
    simp only [stepsExceed]
    rw [Bool.or_assoc]

/-- C4 (amended): in MOVABLE_BY_MOUSE mode, for a drag starting with the
right button held and the moved flag clear, the flag after a sequence of
mouse moves is set iff some single move's offset since the last recorded
position exceeds Manhattan distance 10 (not the cumulative offset of the
drag), and the subsequent right-button release dispatches the click to the
selected node iff no single step exceeded the threshold. -/
theorem drag_flag_spec (s : PanState) (ps : List (ℤ × ℤ))
    (h : s.rightPressed = true) (h0 : s.moved = false) :
    (ps.foldl (panMove CMode.MOVABLE_BY_MOUSE) s).moved = stepsExceed s.saved ps
    ∧ panReleaseDispatches CMode.MOVABLE_BY_MOUSE
        (ps.foldl (panMove CMode.MOVABLE_BY_MOUSE) s) = !stepsExceed s.saved ps := by
  obtain ⟨hm, _⟩ := panMove_foldl ps s h
  rw [h0, Bool.false_or] at hm
  refine ⟨hm, ?_⟩
  simp [panReleaseDispatches, panRightReleased, hm]

/-- C4 witness: `drag_flag_spec` applied to a concrete one-move drag of
Manhattan length 3. -/
theorem drag_flag_spec_witness :
    (⟨true, false, (0, 0), (0, 0)⟩ : PanState).rightPressed = true
    ∧ (⟨true, false, (0, 0), (0, 0)⟩ : PanState).moved = false
    ∧ (([((3 : ℤ), (0 : ℤ))].foldl (panMove CMode.MOVABLE_BY_MOUSE)
          ⟨true, false, (0, 0), (0, 0)⟩).moved
        = stepsExceed ((0 : ℤ), (0 : ℤ)) [((3 : ℤ), (0 : ℤ))]
       ∧ panReleaseDispatches CMode.MOVABLE_BY_MOUSE
          ([((3 : ℤ), (0 : ℤ))].foldl (panMove CMode.MOVABLE_BY_MOUSE)
            ⟨true, false, (0, 0), (0, 0)⟩)
        = !stepsExceed ((0 : ℤ), (0 : ℤ)) [((3 : ℤ), (0 : ℤ))])
    ∧ stepsExceed ((0 : ℤ), (0 : ℤ)) [((3 : ℤ), (0 : ℤ))] = false :=
  ⟨rfl, rfl, drag_flag_spec ⟨true, false, (0, 0), (0, 0)⟩ [((3 : ℤ), (0 : ℤ))] rfl rfl,
    by decide⟩

/-- C4 counterexample: a right-button drag of two moves, (0,0) to (6,0) to
(12,0), has cumulative Manhattan offset 12 > 10, yet the moved flag stays
clear and the release click is dispatched (not suppressed), because each
single step has Manhattan length 6 ≤ 10. -/
theorem drag_cumulative_cex :
    ([((6 : ℤ), (0 : ℤ)), (12, 0)].foldl (panMove CMode.MOVABLE_BY_MOUSE)
        ⟨true, false, (0, 0), (0, 0)⟩).saved = (12, 0)
    ∧ manhattan (12 - 0, 0 - 0) > 10
    ∧ (([((6 : ℤ), (0 : ℤ)), (12, 0)].foldl (panMove CMode.MOVABLE_BY_MOUSE)
        ⟨true, false, (0, 0), (0, 0)⟩).moved = false)
    ∧ panReleaseDispatches CMode.MOVABLE_BY_MOUSE
        ([((6 : ℤ), (0 : ℤ)), (12, 0)].foldl (panMove CMode.MOVABLE_BY_MOUSE)
          ⟨true, false, (0, 0), (0, 0)⟩) = true := by
  decide

/-- C10: in `Act::update` the signed saved mouse coordinate is compared
against the unsigned active margin `indent / 2`, so a negative coordinate
converts to a value of at least `2^31` and the left/top-edge branch is never
taken: the edge-scroll offset on that axis is never positive, even though
the coordinate is numerically smaller than the margin. -/
theorem edge_scroll_signed_unsigned (x : ℤ) (winSize indent amt : ℕ)
    (hx1 : -(2 ^ 31) ≤ x) (hx2 : x < 0) (hind : indent < 2 ^ 32) :
    x < ((indent / 2 : ℕ) : ℤ)
    ∧ ¬ (uconv x < indent / 2)
    ∧ edgeScrollOffset x winSize indent amt ≤ 0 := by
  have hu : uconv x = (x + 2 ^ 32).toNat := by
    unfold uconv
    congr 1
    omega
  have h2 : ¬ (uconv x < indent / 2) := by
    rw [hu]
    omega
  refine ⟨by omega, h2, ?_⟩
  unfold edgeScrollOffset
  simp only [if_neg h2]
  split <;> omega

/-- C10 witness: `edge_scroll_signed_unsigned` at the pointer coordinate -1
just outside the left edge, window width 800, indent 40, scroll magnitude
5. -/
theorem edge_scroll_signed_unsigned_witness :
    (-(2 ^ 31) ≤ (-1 : ℤ)) ∧ ((-1 : ℤ) < 0) ∧ (40 < 2 ^ 32)
    ∧ ((-1 : ℤ) < ((40 / 2 : ℕ) : ℤ)
       ∧ ¬ (uconv (-1) < 40 / 2)
       ∧ edgeScrollOffset (-1) 800 40 5 ≤ 0)
    ∧ edgeScrollOffset (-1) 800 40 5 = -5 :=
  ⟨by decide, by decide, by decide,
    edge_scroll_signed_unsigned (-1) 800 40 5 (by decide) (by decide) (by decide),
    by decide⟩

/-- C7 counterexample: `removeChildren` with `firstIndex = 2` on a single
child is not clamped to a no-op: `children.begin() + firstIndex` is past the
container, undefined behaviour (modelled `none`), not "removes nothing". -/
theorem removeChildren_first_index_cex :
    removeChildren false ([0] : List ℕ) 2 (-1) = none
    ∧ removeChildren false ([0] : List ℕ) 2 (-1) ≠ some [0] := by
  decide

/-- C7 (amended): `removeChildren` removes exactly the contiguous range from
`firstIndex` up to `lastIndex` exclusive, where `lastIndex = -1` or
`lastIndex` beyond the child count means removal extends to the end; only
that upper bound is clamped — `firstIndex` must be at most the child count
and the range must be non-reversed, otherwise the iterator arithmetic is
undefined behaviour rather than a clamped no-op. -/
theorem removeChildren_spec {α : Type} (toDelete : Bool) (l : List α)
    (first : ℕ) (last : ℤ)
    (h1 : first ≤ l.length) (h2 : last = -1 ∨ (first : ℤ) ≤ last) :
    removeChildren toDelete l first last =
      some (l.take first ++
        l.drop (if last = -1 ∨ last > (l.length : ℤ) then l.length else last.toNat)) := by
  unfold removeChildren
  rw [if_neg (by omega)]
  by_cases hl : last = -1 ∨ last > (l.length : ℤ)
  · simp only [if_pos hl]
    rw [if_neg (by omega)]
    simp
  · simp only [if_neg hl]
    rw [if_neg (by omega)]

/-- C7 witness: `removeChildren_spec` on the list [0,1,2,3] with
firstIndex 1 and lastIndex -1: children 1..3 are removed, leaving [0]. -/
theorem removeChildren_spec_witness :
    (1 ≤ ([0, 1, 2, 3] : List ℕ).length)
    ∧ ((-1 : ℤ) = -1 ∨ ((1 : ℕ) : ℤ) ≤ -1)
    ∧ removeChildren false ([0, 1, 2, 3] : List ℕ) 1 (-1) =
        some (([0, 1, 2, 3] : List ℕ).take 1 ++
          ([0, 1, 2, 3] : List ℕ).drop
            (if (-1 : ℤ) = -1 ∨ (-1 : ℤ) > ((([0, 1, 2, 3] : List ℕ).length : ℕ) : ℤ)
             then ([0, 1, 2, 3] : List ℕ).length else (-1 : ℤ).toNat))
    ∧ removeChildren false ([0, 1, 2, 3] : List ℕ) 1 (-1) = some [0] :=
  ⟨by decide, Or.inl rfl,
    removeChildren_spec false [0, 1, 2, 3] 1 (-1) (by decide) (Or.inl rfl),
    by decide⟩

/-- The free width and height computed by `Act::setUpNodes` are the window
size minus the left/top indent minus the opposite docked UI's thickness,
in every content mode. -/
theorem setUpNodes_free_size (a : ActLayout) :
    (setUpNodes a).freeWidth = a.windowW - leftIndentOf a - rightWidthOf a
    ∧ (setUpNodes a).freeHeight = a.windowH - topIndentOf a - bottomHeightOf a := by
  rcases hL : a.leftUi with _ | uL <;> rcases hR : a.rightUi with _ | uR <;>
    rcases hT : a.topUi with _ | uT <;> rcases hB : a.bottomUi with _ | uB <;>
    simp only [setUpNodes, leftIndentOf, topIndentOf, rightWidthOf, bottomHeightOf,
      hL, hR, hT, hB] <;>
    split <;> simp

/-- C5: in STATIC mode, `Act::setUpNodes` scales the content layer by
min(freeWidth/contentWidth, freeHeight/contentHeight), sets its origin to
its own center, and positions that origin at the center of the free
rectangle left after the docked indents. -/
theorem static_layout_spec (a : ActLayout) (h : a.mode = CMode.STATIC) :
    (setUpNodes a).contentScale =
      min ((setUpNodes a).freeWidth / a.contentW) ((setUpNodes a).freeHeight / a.contentH)
    ∧ (setUpNodes a).contentOrigin = (a.contentW / 2, a.contentH / 2)
    ∧ (setUpNodes a).contentPos =
        (leftIndentOf a + (setUpNodes a).freeWidth / 2,
         topIndentOf a + (setUpNodes a).freeHeight / 2)
    ∧ (setUpNodes a).freeWidth = a.windowW - leftIndentOf a - rightWidthOf a
    ∧ (setUpNodes a).freeHeight = a.windowH - topIndentOf a - bottomHeightOf a := by
  obtain ⟨hw, hh⟩ := setUpNodes_free_size a
  refine ⟨?_, ?_, ?_, hw, hh⟩ <;>
    rcases hL : a.leftUi with _ | uL <;> rcases hR : a.rightUi with _ | uR <;>
    rcases hT : a.topUi with _ | uT <;> rcases hB : a.bottomUi with _ | uB <;>
    simp only [setUpNodes, leftIndentOf, topIndentOf, rightWidthOf, bottomHeightOf, halfOf,
      hL, hR, hT, hB, h, reduceIte] <;>
    simp <;> ring

/-- C5 witness: `static_layout_spec` on a 100x100 window with no docked UI
and 200x100 content: the scale evaluates to 1/2, the origin to the content
center (100, 50), and the position to the free-rectangle center (50, 50). -/
theorem static_layout_spec_witness :
    exLayoutStatic.mode = CMode.STATIC
    ∧ ((setUpNodes exLayoutStatic).contentScale =
        min ((setUpNodes exLayoutStatic).freeWidth / exLayoutStatic.contentW)
          ((setUpNodes exLayoutStatic).freeHeight / exLayoutStatic.contentH)
      ∧ (setUpNodes exLayoutStatic).contentOrigin =
          (exLayoutStatic.contentW / 2, exLayoutStatic.contentH / 2)
      ∧ (setUpNodes exLayoutStatic).contentPos =
          (leftIndentOf exLayoutStatic + (setUpNodes exLayoutStatic).freeWidth / 2,
           topIndentOf exLayoutStatic + (setUpNodes exLayoutStatic).freeHeight / 2)
      ∧ (setUpNodes exLayoutStatic).freeWidth =
          exLayoutStatic.windowW - leftIndentOf exLayoutStatic - rightWidthOf exLayoutStatic
      ∧ (setUpNodes exLayoutStatic).freeHeight =
          exLayoutStatic.windowH - topIndentOf exLayoutStatic - bottomHeightOf exLayoutStatic)
    ∧ (setUpNodes exLayoutStatic).contentScale = 1 / 2
    ∧ (setUpNodes exLayoutStatic).contentOrigin = (100, 50)
    ∧ (setUpNodes exLayoutStatic).contentPos = (50, 50) :=
  ⟨rfl, static_layout_spec exLayoutStatic rfl,
    by norm_num [setUpNodes, exLayoutStatic, halfOf, min_def],
    by norm_num [setUpNodes, exLayoutStatic, halfOf],
    by norm_num [setUpNodes, exLayoutStatic, halfOf]⟩

/-- C6 counterexample: a left UI sitting at x = 7 keeps that x coordinate
after `setUpNodes` (only its y is assigned), so the left UI is not
positioned at (0, topIndent) as claimed. -/
theorem left_ui_position_cex :
    (setUpNodes exLayout6).leftUi = some ⟨7, 0, 10, 10⟩ ∧ (7 : ℚ) ≠ 0 := by
  constructor
  · decide
  · decide

/-- C6 (amended): `Act::setUpNodes` assigns the right UI position
(windowWidth − width, topIndent) and the bottom UI position
(leftIndent, windowHeight − height), but only assigns the left UI's y
coordinate (topIndent) and the top UI's x coordinate (leftIndent), leaving
their other coordinate untouched; free width is window width minus the left
indent minus the right UI's width (0 when absent), free height analogously,
and a left UI of width 50 shifts the free width by exactly 50 regardless of
the other slots. -/
theorem docking_layout_spec (a : ActLayout) :
    (∀ u, a.rightUi = some u →
      (setUpNodes a).rightUi = some { u with x := a.windowW - u.w, y := topIndentOf a })
    ∧ (∀ u, a.bottomUi = some u →
      (setUpNodes a).bottomUi = some { u with x := leftIndentOf a, y := a.windowH - u.h })
    ∧ (∀ u, a.leftUi = some u →
      (setUpNodes a).leftUi = some { u with y := topIndentOf a })
    ∧ (∀ u, a.topUi = some u →
      (setUpNodes a).topUi = some { u with x := leftIndentOf a })
    ∧ (setUpNodes a).freeWidth = a.windowW - leftIndentOf a - rightWidthOf a
    ∧ (setUpNodes a).freeHeight = a.windowH - topIndentOf a - bottomHeightOf a
    ∧ (∀ u, a.leftUi = some u → u.w = 50 →
      (setUpNodes a).freeWidth = (setUpNodes { a with leftUi := none }).freeWidth - 50) := by
  obtain ⟨hw, hh⟩ := setUpNodes_free_size a
  refine ⟨?_, ?_, ?_, ?_, hw, hh, ?_⟩
  · intro u hu
    rcases hL : a.leftUi with _ | uL <;> rcases hT : a.topUi with _ | uT <;>
      simp only [setUpNodes, topIndentOf, hL, hT, hu] <;> split <;> simp
  · intro u hu
    rcases hL : a.leftUi with _ | uL <;> rcases hT : a.topUi with _ | uT <;>
      simp only [setUpNodes, leftIndentOf, hL, hT, hu] <;> split <;> simp
  · intro u hu
    rcases hT : a.topUi with _ | uT <;>
      simp only [setUpNodes, topIndentOf, hT, hu] <;> split <;> simp
  · intro u hu
    rcases hL : a.leftUi with _ | uL <;>
      simp only [setUpNodes, leftIndentOf, hL, hu] <;> split <;> simp
  · intro u hu h50
    obtain ⟨hw', _⟩ := setUpNodes_free_size { a with leftUi := none }
    rw [hw, hw']
    simp only [leftIndentOf, rightWidthOf, hu]
    rcases hR : a.rightUi with _ | uR <;> simp [h50, hR] <;> ring

/-- C6 witness: `docking_layout_spec` applied to the concrete layout with a
left UI at x = 7: the left UI's recorded position after layout keeps x = 7
and gets y = topIndent = 0. -/
theorem docking_layout_spec_witness :
    (exLayout6.leftUi = some ⟨7, 3, 10, 10⟩)
    ∧ (setUpNodes exLayout6).leftUi =
        some { (⟨7, 3, 10, 10⟩ : UiElem) with y := topIndentOf exLayout6 } :=
  ⟨rfl, (docking_layout_spec exLayout6).2.2.1 ⟨7, 3, 10, 10⟩ rfl⟩

/-- Whatever its selection state, a node receiving `onMouseLeft` first
observes the leave call on itself; the remaining events are the leaves of
its previously selected chain. -/
theorem mouseLeftOp_snd (d : NData) (cs : List NTree) :
    (mouseLeftOp (NTree.node d cs)).2 =
      Ev.leave d.nid ::
        (match d.selChild with
          | none => []
          | some i =>
            match cs.get? i with
            | none => []
            | some c => (mouseLeftOp c).2) := by
  rw [mouseLeftOp]
  cases d.selChild with
  | none => rfl
  | some i =>
    split
    · simp_all
    · split <;> simp_all [List.getElem?_eq_none]

/-- Whatever its selection state, a node receiving `onMouseLeft` first
observes the leave call on itself. -/
theorem mouseLeftOp_head (t : NTree) :
    ∃ tl, (mouseLeftOp t).2 = Ev.leave t.dat.nid :: tl := by
  cases t with
  | node d cs => exact ⟨_, mouseLeftOp_snd d cs⟩

/-- Replacing a node's data keeps the replacement data. -/
theorem setDat_dat (t : NTree) (d : NData) : (t.setDat d).dat = d := by
  cases t
  rfl

/-- C9 counterexample: `exChild9` is not its parent's selected child, yet
turning its selectable flag on fires a mouse-leave on it (the else branch of
`setSelectable`), so turning the flag on does not fire "no other event". -/
theorem setSelectable_enter_only_cex :
    exParent9.dat.selChild ≠ some 0
    ∧ (setSelectableOfChild exParent9 0 true).2 = [Ev.leave 5] := by
  constructor
  · simp [exParent9, NTree.dat]
  · rw [setSelectableOfChild]
    simp [exParent9, exChild9, mkLeaf, NTree.children, NTree.dat, NTree.setDat, mouseLeftOp]

/-- C9 (amended): when `setSelectable` is called with an unchanged value, no
event fires; with a changed value, turning the flag on fires a mouse-enter
iff the parent currently reports this node as its selected child, and in
every other changed case (turning on while not reported selected, or
turning off) a mouse-leave fires on the node. -/
theorem setSelectable_spec (t : NTree) (i : ℕ) (c : NTree) (v : Bool)
    (hc : t.children.get? i = some c) :
    (c.dat.selectable = v → setSelectableOfChild t i v = (t, []))
    ∧ (c.dat.selectable ≠ v → v = true → t.dat.selChild = some i →
        (setSelectableOfChild t i v).2 = [Ev.enter c.dat.nid])
    ∧ (c.dat.selectable ≠ v → ¬ (v = true ∧ t.dat.selChild = some i) →
        ∃ tl, (setSelectableOfChild t i v).2 = Ev.leave c.dat.nid :: tl) := by
  simp only [setSelectableOfChild, hc]
  refine ⟨fun hv => by rw [if_pos hv], fun hv hvt hsel => ?_, fun hv hno => ?_⟩
  · rw [if_neg hv, if_pos (by simp [hvt, hsel])]
    simp [setDat_dat]
  · rw [if_neg hv, if_neg (by
      intro hb
      rcases Bool.and_eq_true .. |>.mp hb with ⟨hv1, hv2⟩
      exact hno ⟨hv1, of_decide_eq_true hv2⟩)]
    obtain ⟨tl, htl⟩ := mouseLeftOp_head (c.setDat { c.dat with selectable := v })
    exact ⟨tl, by rw [htl, setDat_dat]⟩

/-- C9 witness: `setSelectable_spec` on a parent that currently reports its
(unselectable) child selected: turning the flag on fires exactly one
mouse-enter on the child. -/
theorem setSelectable_spec_witness :
    exParent9sel.children.get? 0 = some exChild9
    ∧ exChild9.dat.selectable ≠ true
    ∧ exParent9sel.dat.selChild = some 0
    ∧ (setSelectableOfChild exParent9sel 0 true).2 = [Ev.enter exChild9.dat.nid] :=
  ⟨rfl, by simp [exChild9, mkLeaf, NTree.dat], rfl,
    (setSelectable_spec exParent9sel 0 exChild9 true rfl).2.1
      (by simp [exChild9, mkLeaf, NTree.dat]) rfl rfl⟩

/-- Induction over the node tree: a property holding at every node once it
holds at all children holds everywhere. -/
theorem NTree.my_ind (P : NTree → Prop)
    (h : ∀ d cs, (∀ c ∈ cs, P c) → P (NTree.node d cs)) : ∀ t, P t
  | NTree.node d cs => h d cs (fun c hc => NTree.my_ind P h c)
decreasing_by
  simp_wf
  have := List.sizeOf_lt_of_mem hc
  omega

/-- Every tree has positive height. -/
theorem NTree.depth_pos (t : NTree) : 0 < t.depth := by
  cases t
  rw [NTree.depth]
  omega

/-- A member of a list of trees is at most as high as the list. -/
theorem NTree.depthList_ge (c : NTree) : ∀ cs, c ∈ cs → c.depth ≤ NTree.depthList cs := by
  intro cs hc
  induction cs with
  | nil => cases hc
  | cons a as ih =>
    rw [NTree.depthList]
    rcases List.mem_cons.mp hc with h | h
    · rw [h]
      exact le_max_left _ _
    · exact le_trans (ih h) (le_max_right _ _)

/-- A child is strictly lower than its parent. -/
theorem NTree.depth_child_lt (t c : NTree) (hc : c ∈ t.children) : c.depth < t.depth := by
  cases t with
  | node d cs =>
    have := NTree.depthList_ge c cs hc
    rw [NTree.depth]
    omega

/-- The first component of `onMouseLeft`, written out by cases. -/
theorem mouseLeftOp_fst (d : NData) (cs : List NTree) :
    (mouseLeftOp (NTree.node d cs)).1 =
      (match d.selChild with
        | none => NTree.node d cs
        | some i =>
          NTree.node { d with selChild := none }
            (match cs.get? i with
              | none => cs
              | some c => cs.set i (mouseLeftOp c).1)) := by
  rw [mouseLeftOp]
  cases d.selChild with
  | none => rfl
  | some i =>
    split
    · simp_all
    · split <;> simp_all [List.getElem?_eq_none]

/-- `skelList` computes `skel` elementwise. -/
theorem skelList_map : ∀ cs : List NTree, skelList cs = cs.map skel := by
  intro cs
  induction cs with
  | nil => rfl
  | cons a as ih => rw [skelList, List.map, ih]

/-- Erasing selection state preserves the height of a list of trees. -/
theorem skel_depthList (cs : List NTree) (ih : ∀ c ∈ cs, (skel c).depth = c.depth) :
    NTree.depthList (skelList cs) = NTree.depthList cs := by
  induction cs with
  | nil => rfl
  | cons a as ihl =>
    rw [skelList, NTree.depthList, NTree.depthList, ih a (by simp),
      ihl (fun c hc => ih c (by simp [hc]))]

/-- Erasing selection state preserves height. -/
theorem skel_depth : ∀ t : NTree, (skel t).depth = t.depth := by
  intro t
  induction t using NTree.my_ind with
  | h d cs ih =>
    rw [skel, NTree.depth, NTree.depth, skel_depthList cs ih]

/-- Trees with equal skeletons have equal heights. -/
theorem depth_of_skel_eq (a b : NTree) (h : skel a = skel b) : a.depth = b.depth := by
  rw [← skel_depth a, ← skel_depth b, h]

/-- Replacing a list entry by one with the same skeleton preserves the
skeleton of the list. -/
theorem skelList_set (cs : List NTree) : ∀ (i : ℕ) (x c : NTree),
    cs.get? i = some c → skel x = skel c → skelList (cs.set i x) = skelList cs := by
  induction cs with
  | nil => intro i x c hc; simp at hc
  | cons a as ih =>
    intro i x c hc hx
    cases i with
    | zero =>
      simp at hc
      rw [List.set, skelList, skelList, hx, hc]
    | succ n =>
      simp at hc
      rw [List.set, skelList, skelList, ih n x c (by simpa using hc) hx]

/-- `onMouseLeft` changes only selection state. -/
theorem skel_mouseLeftOp : ∀ t : NTree, skel (mouseLeftOp t).1 = skel t := by
  intro t
  induction t using NTree.my_ind with
  | h d cs ih =>
    rw [mouseLeftOp_fst]
    cases hsel : d.selChild with
    | none => rfl
    | some i =>
      simp only
      cases hget : cs.get? i with
      | none => simp only [hget, skel]
      | some c =>
        simp only [hget, skel]
        have hm : c ∈ cs := List.get?_mem hget
        rw [skelList_set cs i _ c hget (ih c hm)]

/-- `deselectChild` changes only selection state. -/
theorem skel_deselectChildOp : ∀ t : NTree, skel (deselectChildOp t).1 = skel t := by
  intro t
  cases t with
  | node d cs =>
    rw [deselectChildOp]
    cases hsel : d.selChild with
    | none => rfl
    | some i =>
      simp only [hsel]
      cases hget : cs.get? i with
      | none => simp only [hget, skel]
      | some c =>
        simp only [hget, skel]
        rw [skelList_set cs i _ c hget (skel_mouseLeftOp c)]

/-- `deselectChild` preserves height. -/
theorem depth_deselectChildOp (t : NTree) : (deselectChildOp t).1.depth = t.depth :=
  depth_of_skel_eq _ _ (skel_deselectChildOp t)

/-- The first event of `deselectChild` with a valid selected child is the
leave call on that child. -/
theorem deselect_events_head (t : NTree) (i : ℕ) (c : NTree)
    (hsel : t.dat.selChild = some i) (hget : t.children.get? i = some c) :
    (deselectChildOp t).2.head? = some (Ev.leave c.dat.nid) := by
  cases t with
  | node d cs =>
    rw [deselectChildOp]
    rw [NTree.dat] at hsel
    rw [NTree.children] at hget
    obtain ⟨tl, htl⟩ := mouseLeftOp_head c
    have hget' : cs[i]? = some c := by rw [← List.get?_eq_getElem?]; exact hget
    simp [hsel, hget', htl]

/-- A hit returned by the reverse scan is a member of the list. -/
theorem pickChild_mem (p : NTree → Bool) :
    ∀ (l : List NTree) (i : ℕ) (c : NTree), pickChild p l = some (i, c) → c ∈ l := by
  intro l
  induction l with
  | nil => intro i c h; simp [pickChild] at h
  | cons a as ih =>
    intro i c h
    rw [pickChild] at h
    cases hr : pickChild p as with
    | some r =>
      rw [hr] at h
      simp at h
      obtain ⟨hi, hc⟩ := h
      subst hc
      exact List.mem_cons_of_mem a (ih r.1 r.2 (by rw [hr]))
    | none =>
      rw [hr] at h
      cases hpa : p a with
      | true =>
        rw [if_pos hpa] at h
        simp at h
        obtain ⟨hi, hc⟩ := h
        subst hc
        exact List.mem_cons_self a as
      | false =>
        rw [if_neg (by rw [hpa]; exact Bool.false_ne_true)] at h
        cases h

/-- A failed reverse scan means no member satisfies the predicate. -/
theorem pickChild_none (p : NTree → Bool) :
    ∀ l : List NTree, pickChild p l = none → ∀ c ∈ l, p c = false := by
  intro l
  induction l with
  | nil => intro _ c hc; cases hc
  | cons a as ih =>
    intro h c hc
    rw [pickChild] at h
    cases hr : pickChild p as with
    | some r => rw [hr] at h; cases h
    | none =>
      rw [hr] at h
      cases hpa : p a with
      | true => rw [if_pos hpa] at h; cases h
      | false =>
        rcases List.mem_cons.mp hc with h1 | h1
        · rw [h1, hpa]
        · exact ih hr c h1

/-- The reverse scan of `getSelectedChild` returns the hit with the largest
index: it satisfies the predicate and every later (topmore) child fails
it. -/
theorem pickChild_some (p : NTree → Bool) :
    ∀ (l : List NTree) (i : ℕ) (c : NTree), pickChild p l = some (i, c) →
      l.get? i = some c ∧ p c = true
      ∧ ∀ (j : ℕ) (d : NTree), i < j → l.get? j = some d → p d = false := by
  intro l
  induction l with
  | nil => intro i c h; simp [pickChild] at h
  | cons a as ih =>
    intro i c h
    rw [pickChild] at h
    cases hr : pickChild p as with
    | some r =>
      rw [hr] at h
      simp at h
      obtain ⟨hi, hc⟩ := h
      subst hc
      obtain ⟨h1, h2, h3⟩ := ih r.1 r.2 (by rw [hr])
      refine ⟨?_, h2, ?_⟩
      · rw [← hi]
        simpa using h1
      · intro j d hj hd
        cases j with
        | zero => omega
        | succ j' =>
          rw [List.get?_cons_succ] at hd
          exact h3 j' d (by omega) hd
    | none =>
      rw [hr] at h
      cases hpa : p a with
      | true =>
        rw [if_pos hpa] at h
        simp at h
        obtain ⟨hi, hc⟩ := h
        subst hc
        refine ⟨by rw [← hi]; rfl, hpa, ?_⟩
        intro j d hj hd
        cases j with
        | zero => omega
        | succ j' =>
          rw [List.get?_cons_succ] at hd
          exact pickChild_none p as hr d (List.get?_mem hd)
      | false =>
        rw [if_neg (by rw [hpa]; exact Bool.false_ne_true)] at h
        cases h

/-- `selectF` computes the same result at any fuel at least the tree
height. -/
theorem selectF_fuel (focus : Bool) (win : ℕ × ℕ) (pos : ℤ × ℤ) :
    ∀ (n m : ℕ) (ct : Transform) (t : NTree), t.depth ≤ n → t.depth ≤ m →
      selectF focus win pos n ct t = selectF focus win pos m ct t := by
  intro n
  induction n with
  | zero =>
    intro m ct t hn _
    have := NTree.depth_pos t
    omega
  | succ n ih =>
    intro m ct t hn hm
    cases m with
    | zero =>
      have := NTree.depth_pos t
      omega
    | succ m =>
      rw [selectF, selectF]
      cases hp : pickChild (childHit focus win pos ct) (deselectChildOp t).1.children with
      | none => rfl
      | some r =>
        obtain ⟨i, c⟩ := r
        dsimp only
        have hmem : c ∈ (deselectChildOp t).1.children := pickChild_mem _ _ i c (by rw [hp])
        have hlt : c.depth < t.depth := by
          have := NTree.depth_child_lt (deselectChildOp t).1 c hmem
          rw [depth_deselectChildOp t] at this
          exact this
        rw [ih m (ct.comp c.dat.loc) c (by omega) (by omega)]

/-- `select` satisfies exactly the recursion of `AbstractNode::select`:
deselect first, then, if selectable, pick the topmost hit among the (now
deselected) children, select it, fire enter and recurse into it. -/
theorem select_unfold (focus : Bool) (win : ℕ × ℕ) (pos : ℤ × ℤ) (ct : Transform) (t : NTree) :
    select focus win pos ct t =
      (let r0 := deselectChildOp t
       if t.dat.selectable then
         match pickChild (childHit focus win pos ct) r0.1.children with
         | some ic =>
           let r := select focus win pos (ct.comp ic.2.dat.loc) ic.2
           ((r0.1.setChild ic.1 r.1).setSel (some ic.1),
             r0.2 ++ Ev.enter ic.2.dat.nid :: r.2)
         | none => r0
       else r0) := by
  rw [select]
  dsimp only
  cases hdd : t.depth with
  | zero =>
    have := NTree.depth_pos t
    omega
  | succ k =>
    rw [selectF]
    cases hp : pickChild (childHit focus win pos ct) (deselectChildOp t).1.children with
    | none => rfl
    | some r =>
      obtain ⟨i, c⟩ := r
      dsimp only
      have hmem : c ∈ (deselectChildOp t).1.children := pickChild_mem _ _ i c (by rw [hp])
      have hlt : c.depth < t.depth := by
        have := NTree.depth_child_lt (deselectChildOp t).1 c hmem
        rw [depth_deselectChildOp t] at this
        exact this
      simp only [select]
      rw [selectF_fuel focus win pos k c.depth (ct.comp c.dat.loc) c
        (by omega) (le_refl _)]

/-- `setSel` writes the selected-child reference. -/
theorem setSel_selChild (x : NTree) (o : Option ℕ) : (x.setSel o).dat.selChild = o := by
  cases x
  rfl

/-- `setSel` leaves the children untouched. -/
theorem setSel_children (x : NTree) (o : Option ℕ) : (x.setSel o).children = x.children := by
  cases x
  rfl

/-- `setChild` updates the children list. -/
theorem setChild_children (x : NTree) (i : ℕ) (y : NTree) :
    (x.setChild i y).children = x.children.set i y := by
  cases x
  rfl

/-- After `deselectChild`, no child is selected. -/
theorem deselect_selChild (t : NTree) : (deselectChildOp t).1.dat.selChild = none := by
  cases t with
  | node d cs =>
    rw [deselectChildOp]
    cases hsel : d.selChild with
    | none => simpa [NTree.dat] using hsel
    | some i =>
      simp only [hsel]
      cases hget : cs.get? i <;> simp [hget, NTree.dat]

/-- C2: `AbstractNode::select` first deselects the current selected child
(the leave on it heads the deselection events, which prefix the event
stream); only if the node itself is selectable does it scan the children
from last added (topmost) to first added and select the first selectable
child whose transformed bounding rectangle contains the pointer (per
`checkMouseOnIt`, which also requires window focus and the pointer inside
the window); it fires enter on that child and recurses `select` into it;
deselection changes nothing but selection back-references, and the single
`selectedChild` slot makes at most one child selected at any time. -/
theorem select_spec (focus : Bool) (win : ℕ × ℕ) (pos : ℤ × ℤ) (ct : Transform) (t : NTree) :
    (∃ rest, (select focus win pos ct t).2 = (deselectChildOp t).2 ++ rest)
    ∧ (∀ i c, t.dat.selChild = some i → t.children.get? i = some c →
        (deselectChildOp t).2.head? = some (Ev.leave c.dat.nid))
    ∧ (t.dat.selectable = false →
        (select focus win pos ct t).1.dat.selChild = none
        ∧ (select focus win pos ct t).2 = (deselectChildOp t).2)
    ∧ (t.dat.selectable = true →
        pickChild (childHit focus win pos ct) (deselectChildOp t).1.children = none →
        (select focus win pos ct t).1.dat.selChild = none
        ∧ (select focus win pos ct t).2 = (deselectChildOp t).2
        ∧ ∀ c ∈ (deselectChildOp t).1.children, childHit focus win pos ct c = false)
    ∧ (∀ i c, t.dat.selectable = true →
        pickChild (childHit focus win pos ct) (deselectChildOp t).1.children = some (i, c) →
        (select focus win pos ct t).1.dat.selChild = some i
        ∧ (deselectChildOp t).1.children.get? i = some c
        ∧ childHit focus win pos ct c = true
        ∧ (∀ j d, i < j → (deselectChildOp t).1.children.get? j = some d →
            childHit focus win pos ct d = false)
        ∧ (select focus win pos ct t).2 =
            (deselectChildOp t).2 ++ Ev.enter c.dat.nid
              :: (select focus win pos (ct.comp c.dat.loc) c).2
        ∧ (select focus win pos ct t).1.children.get? i =
            some (select focus win pos (ct.comp c.dat.loc) c).1)
    ∧ skel (deselectChildOp t).1 = skel t := by
  rw [select_unfold]
  dsimp only
  refine ⟨?_, ?_, ?_, ?_, ?_, skel_deselectChildOp t⟩
  · cases hs : t.dat.selectable with
    | false => exact ⟨[], by simp [hs]⟩
    | true =>
      simp only [hs, if_true]
      cases hp : pickChild (childHit focus win pos ct) (deselectChildOp t).1.children with
      | none => exact ⟨[], by simp⟩
      | some r =>
        obtain ⟨i, c⟩ := r
        dsimp only
        exact ⟨_, rfl⟩
  · intro i c hsel hget
    exact deselect_events_head t i c hsel hget
  · intro hs
    simp only [hs, Bool.false_eq_true, if_false]
    exact ⟨deselect_selChild t, trivial⟩
  · intro hs hp
    simp only [hs, if_true, hp]
    exact ⟨deselect_selChild t, trivial, pickChild_none _ _ hp⟩
  · intro i c hs hp
    simp only [hs, if_true, hp]
    obtain ⟨h1, h2, h3⟩ := pickChild_some _ _ i c hp
    have hlen : i < (deselectChildOp t).1.children.length := by
      rcases List.get?_eq_some.mp h1 with ⟨hlt, _⟩
      exact hlt
    refine ⟨setSel_selChild _ _, h1, h2, h3, trivial, ?_⟩
    rw [setSel_children, setChild_children, List.get?_set_of_lt _ _ hlen, if_pos rfl]

/-- C2 witness: `select_spec` on a selectable root with two overlapping
selectable siblings, B (id 2) added after A (id 1), pointer (5, 5) inside
both rectangles, focused 100x100 window: B is selected (topmost-wins) and
the enter event goes to id 2. -/
theorem select_spec_witness :
    exTopRoot.dat.selectable = true
    ∧ pickChild (childHit true (100, 100) (5, 5) Transform.ident)
        (deselectChildOp exTopRoot).1.children = some (1, exTopB)
    ∧ (select true (100, 100) (5, 5) Transform.ident exTopRoot).1.dat.selChild = some 1
    ∧ childHit true (100, 100) (5, 5) Transform.ident exTopB = true := by
  have hpick : pickChild (childHit true (100, 100) (5, 5) Transform.ident)
      (deselectChildOp exTopRoot).1.children = some (1, exTopB) := by
    norm_num [deselectChildOp, exTopRoot, exTopA, exTopB, mkLeaf, pickChild, childHit,
      checkMouseOnIt, Transform.ident, Transform.transformRect, Transform.transformPoint,
      NTree.dat, NTree.children]
  have h := (select_spec true (100, 100) (5, 5) Transform.ident exTopRoot).2.2.2.2.1
    1 exTopB rfl hpick
  exact ⟨rfl, hpick, h.1, h.2.2.1⟩

/-- Composing with the identity on the left is the identity. -/
theorem Transform.ident_comp (a : Transform) : Transform.ident.comp a = a := by
  cases a
  simp [Transform.comp, Transform.ident]

/-- `makeTransformedList` dirties every member. -/
theorem allDirtyList_makeTransformed (cs : List NTree)
    (ih : ∀ c ∈ cs, allDirtyB (makeTransformed c) = true) :
    allDirtyList (makeTransformedList cs) = true := by
  induction cs with
  | nil => rfl
  | cons a as ihl =>
    simp only [makeTransformedList, allDirtyList, Bool.and_eq_true]
    exact ⟨ih a (by simp), ihl (fun c hc => ih c (by simp [hc]))⟩

/-- `makeTransformed` sets the dirty flag on the node and every
descendant. -/
theorem allDirty_makeTransformed : ∀ t : NTree, allDirtyB (makeTransformed t) = true := by
  intro t
  induction t using NTree.my_ind with
  | h d cs ih =>
    simp only [makeTransformed, allDirtyB, Bool.and_eq_true]
    exact ⟨by trivial, allDirtyList_makeTransformed cs ih⟩

/-- The cache invariant holds vacuously on an all-dirty list, elementwise. -/
theorem invList_of_allDirty (cs : List NTree)
    (ih : ∀ c ∈ cs, allDirtyB c = true → ∀ pfx, invB pfx c = true)
    (hall : allDirtyList cs = true) (pfx : Transform) : invList pfx cs = true := by
  induction cs with
  | nil => rfl
  | cons a as ihl =>
    simp only [allDirtyList, Bool.and_eq_true] at hall
    simp only [invList, Bool.and_eq_true]
    exact ⟨ih a (by simp) hall.1 pfx,
      ihl (fun c hc h => ih c (by simp [hc]) h) hall.2⟩

/-- The cache invariant holds vacuously on an all-dirty tree. -/
theorem invB_of_allDirty : ∀ t : NTree, allDirtyB t = true → ∀ pfx, invB pfx t = true := by
  intro t
  induction t using NTree.my_ind with
  | h d cs ih =>
    intro hall pfx
    simp only [allDirtyB, Bool.and_eq_true] at hall
    simp only [invB, Bool.and_eq_true]
    exact ⟨by rw [hall.1]; rfl, invList_of_allDirty cs ih hall.2 _⟩

/-- The elementwise reading of `invList` at an index. -/
theorem invList_get? (pfx : Transform) : ∀ (cs : List NTree) (i : ℕ) (c : NTree),
    invList pfx cs = true → cs.get? i = some c → invB pfx c = true := by
  intro cs
  induction cs with
  | nil => intro i c _ hg; simp at hg
  | cons a as ih =>
    intro i c hinv hg
    simp only [invList, Bool.and_eq_true] at hinv
    cases i with
    | zero =>
      simp at hg
      rw [← hg]
      exact hinv.1
    | succ n =>
      rw [List.get?_cons_succ] at hg
      exact ih n c hinv.2 hg

/-- `invList` is preserved by replacing an entry with an invariant-satisfying
tree. -/
theorem invList_set (pfx : Transform) : ∀ (cs : List NTree) (i : ℕ) (x : NTree),
    invList pfx cs = true → invB pfx x = true → invList pfx (cs.set i x) = true := by
  intro cs
  induction cs with
  | nil => intro i x h _; simpa using h
  | cons a as ih =>
    intro i x hinv hx
    simp only [invList, Bool.and_eq_true] at hinv
    cases i with
    | zero =>
      simp only [List.set, invList, Bool.and_eq_true]
      exact ⟨hx, hinv.2⟩
    | succ n =>
      simp only [List.set, invList, Bool.and_eq_true]
      exact ⟨hinv.1, ih n x hinv.2 hx⟩

/-- `makeTransformedList` maps `makeTransformed` over the entries. -/
theorem makeTransformedList_get? : ∀ (cs : List NTree) (j : ℕ),
    (makeTransformedList cs).get? j = (cs.get? j).map makeTransformed := by
  intro cs
  induction cs with
  | nil => intro j; rfl
  | cons a as ih =>
    intro j
    cases j with
    | zero => rfl
    | succ n =>
      simp only [makeTransformedList, List.get?_cons_succ]
      exact ih n

/-- Dirtying a subtree does not change the intended combined transforms. -/
theorem specAt_makeTransformed : ∀ (t : NTree) (w : Transform) (q : List ℕ),
    specAt w (makeTransformed t) q = specAt w t q := by
  intro t
  induction t using NTree.my_ind with
  | h d cs ih =>
    intro w q
    cases q with
    | nil => rfl
    | cons j qr =>
      simp only [makeTransformed, specAt, NTree.children, NTree.dat]
      rw [makeTransformedList_get?]
      cases hg : cs.get? j with
      | none => rfl
      | some c =>
        simp only [Option.map_some']
        exact ih c (List.get?_mem hg) (w.comp d.loc) qr

/-- Dirtying the subtree at a path does not change the intended combined
transforms anywhere. -/
theorem specAt_makeTransformedAt : ∀ (q : List ℕ) (s : NTree) (w : Transform) (p : List ℕ),
    specAt w (makeTransformedAt s q) p = specAt w s p := by
  intro q
  induction q with
  | nil => intro s w p; exact specAt_makeTransformed s w p
  | cons j qr ih =>
    intro s w p
    cases s with
    | node d cs =>
      rw [makeTransformedAt]
      simp only [NTree.children]
      cases hg : cs.get? j with
      | none => rfl
      | some c =>
        have hlen : j < cs.length := (List.get?_eq_some.mp hg).1
        cases p with
        | nil => rfl
        | cons m pr =>
          simp only [NTree.setChild, specAt, NTree.children, NTree.dat]
          rw [List.get?_set_of_lt' _ _ hlen]
          by_cases hjm : j = m
          · rw [if_pos hjm, ← hjm, hg]
            exact ih c _ pr
          · rw [if_neg hjm]

/-- The path-all-dirty condition through the subtree dirtied at a path is
monotone backwards: stays provable on the original tree. -/
theorem invB_markLoc : ∀ (q : List ℕ) (t : NTree) (pfx l : Transform),
    invB pfx t = true → invB pfx (makeTransformedAt (setLocAt t q l) q) = true := by
  intro q
  induction q with
  | nil =>
    intro t pfx l _
    rw [setLocAt, makeTransformedAt]
    exact invB_of_allDirty _ (allDirty_makeTransformed _) pfx
  | cons j qr ih =>
    intro t pfx l hinv
    cases t with
    | node d cs =>
      rw [setLocAt]
      simp only [NTree.children]
      cases hg : cs.get? j with
      | none =>
        rw [makeTransformedAt]
        simp only [NTree.children, hg]
        exact hinv
      | some c =>
        have hlen : j < cs.length := (List.get?_eq_some.mp hg).1
        rw [makeTransformedAt]
        have hset : ((NTree.node d cs).setChild j (setLocAt c qr l)).children.get? j
            = some (setLocAt c qr l) := by
          simp only [NTree.setChild, NTree.children]
          rw [List.get?_set_of_lt' _ _ hlen]
          simp
        simp only [hset]
        simp only [NTree.setChild, List.set_set]
        simp only [invB, Bool.and_eq_true] at hinv ⊢
        refine ⟨hinv.1, ?_⟩
        exact invList_set _ cs j _ hinv.2
          (ih c (pfx.comp d.loc) l (invList_get? _ cs j c hinv.2 hg))

/-- Dirtying the subtree at a path dirties exactly that subtree: the subtree
found at the path afterwards is all-dirty. -/
theorem subtree_markAt : ∀ (q : List ℕ) (t sub : NTree),
    subtreeAt (makeTransformedAt t q) q = some sub → allDirtyB sub = true := by
  intro q
  induction q with
  | nil =>
    intro t sub h
    rw [makeTransformedAt, subtreeAt] at h
    obtain rfl : makeTransformed t = sub := by simpa using h
    exact allDirty_makeTransformed t
  | cons j qr ih =>
    intro t sub h
    cases t with
    | node d cs =>
      rw [makeTransformedAt] at h
      simp only [NTree.children] at h
      cases hg : cs.get? j with
      | none =>
        simp only [hg] at h
        rw [subtreeAt] at h
        simp only [NTree.children, hg] at h
        exact Option.noConfusion h
      | some c =>
        have hlen : j < cs.length := (List.get?_eq_some.mp hg).1
        simp only [hg] at h
        rw [subtreeAt] at h
        have hset : ((NTree.node d cs).setChild j (makeTransformedAt c qr)).children.get? j
            = some (makeTransformedAt c qr) := by
          simp only [NTree.setChild, NTree.children]
          rw [List.get?_set_of_lt' _ _ hlen]
          simp
        simp only [hset] at h
        exact ih c sub h

/-- The cache machinery of `getCombinedTransform` is correct: under the
cache invariant, the call at any path returns the intended composition of
local transforms, preserves the invariant and the intended transforms,
never dirties a clean node, and a repeated call returns the same value
leaving the tree untouched (memoization). -/
theorem getCTgo_main : ∀ (p : List ℕ) (pfx : Transform) (t : NTree), invB pfx t = true →
    ∀ v t', getCTgo pfx t p = some (v, t') →
      some v = specAt pfx t p
      ∧ invB pfx t' = true
      ∧ (∀ (w : Transform) (q : List ℕ), specAt w t' q = specAt w t q)
      ∧ (∀ q : List ℕ, pathAllDirty t' q = true → pathAllDirty t q = true)
      ∧ getCTgo pfx t' p = some (v, t') := by
  intro p
  induction p with
  | nil =>
    intro pfx t hinv v t' h
    cases t with
    | node d cs =>
      simp only [invB, Bool.and_eq_true] at hinv
      obtain ⟨hhead, hkids⟩ := hinv
      rw [getCTgo] at h
      simp only [NTree.dat, NTree.setDat] at h
      cases hd : d.dirty with
      | true =>
        rw [hd] at hhead
        simp only [hd, if_true] at h
        simp only [Option.some.injEq, Prod.mk.injEq] at h
        obtain ⟨hv, ht'⟩ := h
        subst hv
        subst ht'
        refine ⟨rfl, ?_, ?_, ?_, ?_⟩
        · simp only [invB, NTree.dat, Bool.and_eq_true]
          exact ⟨by simp, hkids⟩
        · intro w q
          cases q <;> rfl
        · intro q hq
          cases q <;> simp [pathAllDirty, NTree.dat] at hq
        · rw [getCTgo]
          simp [NTree.dat]
      | false =>
        rw [hd] at hhead
        simp only [Bool.false_or, decide_eq_true_eq] at hhead
        simp only [hd, Bool.false_eq_true, if_false] at h
        simp only [Option.some.injEq, Prod.mk.injEq] at h
        obtain ⟨hv, ht'⟩ := h
        subst hv
        subst ht'
        refine ⟨by rw [specAt, NTree.dat, ← hhead], ?_, fun w q => rfl, fun q hq => hq, ?_⟩
        · simp only [invB, Bool.and_eq_true]
          exact ⟨by rw [hd, hhead]; simp, hkids⟩
        · rw [getCTgo]
          simp [NTree.dat, hd]
  | cons j rest ih =>
    intro pfx t hinv v t' h
    cases t with
    | node d cs =>
      simp only [invB, Bool.and_eq_true] at hinv
      obtain ⟨hhead, hkids⟩ := hinv
      rw [getCTgo] at h
      simp only [NTree.children, NTree.dat, NTree.setDat] at h
      cases hg : cs.get? j with
      | none =>
        simp only [hg] at h
        exact Option.noConfusion h
      | some c =>
        have hlen : j < cs.length := (List.get?_eq_some.mp hg).1
        have hinvc : invB (pfx.comp d.loc) c = true := invList_get? _ cs j c hkids hg
        simp only [hg] at h
        have hv0 : (if d.dirty = true then pfx.comp d.loc else d.cached) = pfx.comp d.loc := by
          cases hd : d.dirty with
          | true => rw [if_pos rfl]
          | false =>
            rw [hd] at hhead
            simp only [Bool.false_or, decide_eq_true_eq] at hhead
            rw [if_neg (by simp), hhead]
        rw [hv0] at h
        cases hrec : getCTgo (pfx.comp d.loc) c rest with
        | none =>
          simp only [hrec] at h
          exact Option.noConfusion h
        | some r =>
          obtain ⟨w, c1⟩ := r
          obtain ⟨ih1, ih2, ih3, ih4, ih5⟩ := ih (pfx.comp d.loc) c hinvc w c1 hrec
          simp only [hrec, NTree.setChild, Option.some.injEq, Prod.mk.injEq] at h
          obtain ⟨hv, ht'⟩ := h
          subst hv
          cases hcond : (d.dirty && pathAllDirty c rest) with
          | true =>
            simp only [hcond, if_true, NTree.setChild] at ht'
            subst ht'
            have hD : d.dirty = true := (Bool.and_eq_true ..).mp hcond |>.1
            have hP : pathAllDirty c rest = true := (Bool.and_eq_true ..).mp hcond |>.2
            refine ⟨?_, ?_, ?_, ?_, ?_⟩
            · simp only [specAt, NTree.children, NTree.dat, hg]
              exact ih1
            · simp only [invB, NTree.dat, NTree.children, Bool.and_eq_true]
              exact ⟨by simp, invList_set _ cs j c1 hkids ih2⟩
            · intro w' q
              cases q with
              | nil => rfl
              | cons m pr =>
                simp only [specAt, NTree.children, NTree.dat]
                rw [List.get?_set_of_lt' _ _ hlen]
                by_cases hjm : j = m
                · rw [if_pos hjm, ← hjm, hg]
                  exact ih3 _ pr
                · rw [if_neg hjm]
            · intro q hq
              cases q with
              | nil => simp [pathAllDirty, NTree.dat] at hq
              | cons m pr =>
                simp only [pathAllDirty, NTree.dat, Bool.and_eq_true] at hq
                exact absurd hq.1 (by simp)
            · rw [getCTgo]
              have hset : (cs.set j c1).get? j = some c1 := by
                rw [List.get?_set_of_lt' _ _ hlen]
                simp
              simp only [NTree.children, NTree.dat, NTree.setChild, hset, Bool.false_and,
                Bool.false_eq_true, if_false, List.set_set]
              rw [ih5]
          | false =>
            simp only [hcond, Bool.false_eq_true, if_false, NTree.setChild] at ht'
            subst ht'
            refine ⟨?_, ?_, ?_, ?_, ?_⟩
            · simp only [specAt, NTree.children, NTree.dat, hg]
              exact ih1
            · simp only [invB, NTree.dat, NTree.children, Bool.and_eq_true]
              exact ⟨hhead, invList_set _ cs j c1 hkids ih2⟩
            · intro w' q
              cases q with
              | nil => rfl
              | cons m pr =>
                simp only [specAt, NTree.children, NTree.dat]
                rw [List.get?_set_of_lt' _ _ hlen]
                by_cases hjm : j = m
                · rw [if_pos hjm, ← hjm, hg]
                  exact ih3 _ pr
                · rw [if_neg hjm]
            · intro q hq
              cases q with
              | nil => exact hq
              | cons m pr =>
                simp only [pathAllDirty, NTree.dat, NTree.children, Bool.and_eq_true] at hq ⊢
                refine ⟨hq.1, ?_⟩
                have hm1 := hq.2
                rw [List.get?_set_of_lt' _ _ hlen] at hm1
                by_cases hjm : j = m
                · rw [if_pos hjm] at hm1
                  rw [← hjm, hg]
                  exact ih4 pr hm1
                · rw [if_neg hjm] at hm1
                  exact hm1
            · rw [getCTgo]
              have hset : (cs.set j c1).get? j = some c1 := by
                rw [List.get?_set_of_lt' _ _ hlen]
                simp
              have hcond1 : (d.dirty && pathAllDirty c1 rest) = false := by
                cases hd : d.dirty with
                | false => rfl
                | true =>
                  rw [Bool.true_and]
                  rw [hd, Bool.true_and] at hcond
                  cases hp1 : pathAllDirty c1 rest with
                  | false => rfl
                  | true => rw [ih4 rest hp1] at hcond; exact hcond
              simp only [NTree.children, NTree.dat, NTree.setChild, hset, hcond1,
                Bool.false_eq_true, if_false, List.set_set, hv0]
              rw [ih5]

/-- C3: `makeTransformed` sets the dirty flag on the node and on every
descendant; under the cache invariant, `getCombinedTransform` at any path
returns the parent's combined transform composed with the local transform
(just the local transform at a dirty parentless root), clears flags along
the way, preserves the invariant, and a repeated call returns the same value
with the tree unchanged (the cached value, no recomputation); and after an
ancestor's local transform is changed and that ancestor invalidated, the
call at any path returns the composition recomputed from the new state — no
stale cache is observed. -/
theorem transform_cache_spec (pfx l : Transform) (t : NTree) (p q : List ℕ)
    (hInv : invB pfx t = true) :
    allDirtyB (makeTransformed t) = true
    ∧ (∀ sub, subtreeAt (makeTransformedAt t q) q = some sub → allDirtyB sub = true)
    ∧ (∀ v t', getCTgo pfx t p = some (v, t') →
        some v = specAt pfx t p ∧ invB pfx t' = true ∧ getCTgo pfx t' p = some (v, t'))
    ∧ (∀ v t', t.dat.dirty = true → getCTgo Transform.ident t [] = some (v, t') →
        v = t.dat.loc)
    ∧ (∀ v₂ t₂, getCTgo pfx (makeTransformedAt (setLocAt t q l) q) p = some (v₂, t₂) →
        some v₂ = specAt pfx (setLocAt t q l) p) := by
  refine ⟨allDirty_makeTransformed t, fun sub h => subtree_markAt q t sub h, ?_, ?_, ?_⟩
  · intro v t' h
    obtain ⟨h1, h2, _, _, h5⟩ := getCTgo_main p pfx t hInv v t' h
    exact ⟨h1, h2, h5⟩
  · intro v t' hd h
    rw [getCTgo] at h
    simp only [hd, reduceIte, Option.some.injEq, Prod.mk.injEq] at h
    rw [← h.1, Transform.ident_comp]
  · intro v₂ t₂ h
    have hinv2 := invB_markLoc q t pfx l hInv
    obtain ⟨h1, _, _, _, _⟩ := getCTgo_main p pfx _ hinv2 v₂ t₂ h
    rw [h1, specAt_makeTransformedAt]

/-- C3 witness: `transform_cache_spec` on a dirty two-node tree (root local
transform a translation, child local transform a scale), path [0], with the
combined transform of the child evaluating to the root-then-child
composition. -/
theorem transform_cache_spec_witness :
    invB Transform.ident exCacheRoot = true
    ∧ (allDirtyB (makeTransformed exCacheRoot) = true
      ∧ (∀ sub, subtreeAt (makeTransformedAt exCacheRoot []) [] = some sub →
          allDirtyB sub = true)
      ∧ (∀ v t', getCTgo Transform.ident exCacheRoot [0] = some (v, t') →
          some v = specAt Transform.ident exCacheRoot [0]
          ∧ invB Transform.ident t' = true
          ∧ getCTgo Transform.ident t' [0] = some (v, t'))
      ∧ (∀ v t', exCacheRoot.dat.dirty = true →
          getCTgo Transform.ident exCacheRoot [] = some (v, t') → v = exCacheRoot.dat.loc)
      ∧ (∀ v₂ t₂, getCTgo Transform.ident
            (makeTransformedAt (setLocAt exCacheRoot [] exT3) []) [0] = some (v₂, t₂) →
          some v₂ = specAt Transform.ident (setLocAt exCacheRoot [] exT3) [0]))
    ∧ (getCTgo Transform.ident exCacheRoot [0]).map Prod.fst =
        some (Transform.comp (Transform.comp Transform.ident exT1) exT2) :=
  ⟨by simp [invB, invList, exCacheRoot, exCacheChild],
    transform_cache_spec Transform.ident exT3 exCacheRoot [0] []
      (by simp [invB, invList, exCacheRoot, exCacheChild]),
    by rfl⟩

end CE
